/-
Verification of the text-to-frequency pipeline of src/app.py.

The source is a Streamlit word-frequency app.  Its core pipeline is:
  fetch_web_content : HTTP fetch (requests, external), HTML parse
    (BeautifulSoup, external), removal of script/style subtrees,
    text extraction, and a whitespace-cleaning pass;
  process_text : jieba segmentation (external), token filtering
    (length >= 2, not a stopword, contains a CJK char), Counter
    aggregation, min_freq thresholding, and a pandas descending
    sort by count;
  chart helpers and main : df.head(top_n) slicing for rendering.

Embedding decisions, stated once here:
  * The external segmenter (jieba) is abstracted: process_text takes
    the token list that jieba.lcut would produce.
  * The external HTML parser (BeautifulSoup) is abstracted as a
    function producing a Dom tree (or failing); the repo's own code
    (decompose of script/style, get_text, the cleaning pass) is
    embedded over that tree.
  * Python dict/Counter insertion order is modelled by an association
    list built left to right (bump / counter below).
  * pandas sort_values(by, ascending=False) computes a numpy argsort
    of the count column and reverses it.  Every argsort kind returns
    an ascending permutation of the rows; only the order among tied
    counts is implementation-defined (numpy's introsort runs a stable
    insertion sort on partitions of at most 16 elements and scrambles
    ties beyond).  The sort is embedded as one deterministic
    refinement: a stable ascending insertion sort by count followed
    by List.reverse.  The universal claim settled against the sort
    relies only on ascending-sortedness and permutation — exactly the
    properties every argsort kind guarantees at every size — and its
    concrete tie-order counterexample uses a 2-row table, where the
    refinement coincides with the program (numpy runs the same stable
    insertion sort there).
  * Python str.strip / str.splitlines / str.split are embedded over
    List Char (pyStrip, pySplitlines, pySplitTwoSpace).
-/
import Mathlib

namespace App

/-! ## Python string primitives used by the cleaning pass -/

/-- The whitespace characters stripped by Python str.strip: the
characters for which str.isspace holds (ASCII whitespace, the
separators x1c to x1f, NEL, NBSP, Ogham space, the U+2000 to U+200A
range, the line and paragraph separators, narrow and medium
mathematical spaces, and the ideographic space). -/
def isPyWhitespace (c : Char) : Bool :=
  c = ' ' || c = '\t' || c = '\n' || c = '\r' || c = '\x0b' || c = '\x0c' ||
  c = '\x1c' || c = '\x1d' || c = '\x1e' || c = '\x1f' || c = '\x85' || c = '\xa0' ||
  c = '\u1680' || (0x2000 ≤ c.toNat && c.toNat ≤ 0x200a) ||
  c = '\u2028' || c = '\u2029' || c = '\u202f' || c = '\u205f' || c = '\u3000'

/-- Python str.strip on a character list: drop leading and trailing
whitespace. -/
def pyStrip (l : List Char) : List Char :=
  ((l.dropWhile isPyWhitespace).reverse.dropWhile isPyWhitespace).reverse

/-- The line-boundary characters recognised by Python str.splitlines. -/
def isLineBreak (c : Char) : Bool :=
  c = '\n' || c = '\r' || c = '\x0b' || c = '\x0c' || c = '\x1c' || c = '\x1d' ||
  c = '\x1e' || c = '\x85' || c = '\u2028' || c = '\u2029'

/-- Python str.splitlines: split at line boundaries, treating CR LF as a
single boundary, with no trailing empty line for a terminal newline. -/
def pySplitlines : List Char → List (List Char)
  | [] => []
  | '\r' :: '\n' :: rest => [] :: pySplitlines rest
  | c :: rest =>
    if isLineBreak c then [] :: pySplitlines rest
    else match pySplitlines rest with
      | [] => [[c]]
      | f :: fs => (c :: f) :: fs

/-- Python line.split of the literal two-space separator: scan left to
right for non-overlapping occurrences of two consecutive spaces and cut
there. -/
def pySplitTwoSpace : List Char → List (List Char)
  | [] => [[]]
  | ' ' :: ' ' :: rest => [] :: pySplitTwoSpace rest
  | c :: rest => (pySplitTwoSpace rest).modifyHead (c :: ·)

/-- The split the spec describes instead: cut at each maximal run of two
or more spaces (the whole run is the separator). -/
def runSplitTwoSpace : List Char → List (List Char)
  | [] => [[]]
  | ' ' :: ' ' :: rest => [] :: runSplitTwoSpace (rest.dropWhile (· = ' '))
  | c :: rest => (runSplitTwoSpace rest).modifyHead (c :: ·)
termination_by l => l.length
decreasing_by
  · have := (List.dropWhile_sublist (l := rest) (fun c => decide (c = ' '))).length_le
    simp only [List.length_cons]
    omega
  · simp only [List.length_cons]
    omega

/-- The cleaning pass of fetch_web_content (lines 42-45 of src/app.py):
split into lines, strip each line, split each line on the literal two
spaces, strip each fragment, and join the non-empty fragments with a
single space. -/
def clean_code (text : List Char) : List Char :=
  List.intercalate [' ']
    (((pySplitlines text).map
        (fun line => (pySplitTwoSpace (pyStrip line)).map pyStrip)).flatten.filter
      (fun c => !c.isEmpty))

/-- The cleaning rule as the spec words it: identical except that each
stripped line is split on runs of two or more spaces. -/
def clean_spec (text : List Char) : List Char :=
  List.intercalate [' ']
    (((pySplitlines text).map
        (fun line => (runSplitTwoSpace (pyStrip line)).map pyStrip)).flatten.filter
      (fun c => !c.isEmpty))

/-! ## The parsed markup tree and fetch_web_content -/

/-- A parsed markup tree, the shape BeautifulSoup hands to the repo's
code: element nodes with a tag name and children, and text nodes. -/
inductive Dom where
  | text (s : String) : Dom
  | element (tag : String) (children : List Dom) : Dom

/-- The tags decomposed by fetch_web_content (line 36 of src/app.py). -/
def isNonVisual (tag : String) : Bool :=
  tag = "script" || tag = "style"

/-- soup([script, style]) followed by decompose: drop, in full, every
subtree rooted at a script or style element. -/
def removeNonVisual : List Dom → List Dom
  | [] => []
  | Dom.text s :: rest => Dom.text s :: removeNonVisual rest
  | Dom.element tag kids :: rest =>
    if isNonVisual tag then removeNonVisual rest
    else Dom.element tag (removeNonVisual kids) :: removeNonVisual rest

/-- soup.get_text(): concatenate every text node in document order. -/
def getText : List Dom → String
  | [] => ""
  | Dom.text s :: rest => s ++ getText rest
  | Dom.element _ kids :: rest => getText kids ++ getText rest

/-- Spec-side reading of extraction: the concatenation of the text nodes
that do not sit under a script or style element. -/
def visibleText : List Dom → String
  | [] => ""
  | Dom.text s :: rest => s ++ visibleText rest
  | Dom.element tag kids :: rest =>
    (if isNonVisual tag then "" else visibleText kids) ++ visibleText rest

/-- All text-node strings of a tree, script/style subtrees included. -/
def domTexts : List Dom → List String
  | [] => []
  | Dom.text s :: rest => s :: domTexts rest
  | Dom.element _ kids :: rest => domTexts kids ++ domTexts rest

/-- fetch_web_content (lines 24-50 of src/app.py).  The network fetch
and the HTML parser are external; they enter as the outcome of
requests.get (a markup string or a raised error) and as the parsing
function.  The body mirrors the source's single try/except: any failure
of either stage falls into the one handler, which returns None. -/
def fetch_web_content (fetched : Except String String)
    (parse : String → Except String (List Dom)) : Option String :=
  match fetched with
  | Except.error _ => none
  | Except.ok markup =>
    match parse markup with
    | Except.error _ => none
    | Except.ok soup =>
      some (String.mk (clean_code (getText (removeNonVisual soup)).data))

/-! ## process_text: filtering, counting, thresholding, sorting -/

/-- The hard-coded stopword set of process_text (lines 58-61 of
src/app.py). -/
def stop_words : List String :=
  ["的", "了", "在", "是", "和", "有", "也", "都", "这", "个", "中", "到", "为",
   "对", "与", "上", "或", "等", "于", "之", "而", "及", "就", "但", "并", "很",
   "要", "从", "以", "将", "不", "我们", "他们", "可以", "一个", "没有", "不是",
   "这个", "就是", "这样", "因为", "所以", "如果", "虽然", "但是", "而且", "然后"]

/-- chinese_pattern.search: the token holds at least one character of
the CJK Unified Ideographs range U+4E00 to U+9FA5. -/
def hasChineseChar (w : String) : Bool :=
  w.data.any (fun c => 0x4e00 ≤ c.toNat && c.toNat ≤ 0x9fa5)

/-- The filter condition of the loop at lines 67-71 of src/app.py. -/
def validToken (sw : List String) (w : String) : Bool :=
  2 ≤ w.length && !(sw.contains w) && hasChineseChar w

/-- The filtering loop, parametric in the stopword set (the parameter
exists for the claim comparing two stopword sets). -/
def filtered_words_with (sw : List String) : List String → List String
  | [] => []
  | w :: rest =>
    if validToken sw w then w :: filtered_words_with sw rest
    else filtered_words_with sw rest

/-- filtered_words as in the source: the loop with the hard-coded
stopword set. -/
def filtered_words (tokens : List String) : List String :=
  filtered_words_with stop_words tokens

/-- One step of collections.Counter: increment the entry of w in place,
or append (w, 1) when w is new.  Position of existing keys is kept, new
keys go to the end: Python dict insertion order. -/
def bump : List (String × Nat) → String → List (String × Nat)
  | [], w => [(w, 1)]
  | (t, c) :: rest, w =>
    if t = w then (t, c + 1) :: rest else (t, c) :: bump rest w

/-- Counter(filtered_words): fold bump over the word stream. -/
def counter (ws : List String) : List (String × Nat) :=
  ws.foldl bump []

/-- Stable ascending insertion by count: the new element p goes before
the first entry whose count is not below p's, so earlier elements stay
ahead of later ones of equal count. -/
def insertByCount (p : String × Nat) : List (String × Nat) → List (String × Nat)
  | [] => [p]
  | q :: rest => if q.2 < p.2 then q :: insertByCount p rest else p :: q :: rest

/-- One deterministic refinement of numpy's argsort on the count
column: an ascending insertion sort by count.  Any argsort kind agrees
with it up to the order of tied counts, and on arrays of at most 16
elements (where introsort runs the same stable insertion sort) it is
the program's exact behaviour. -/
def sortByCountAsc : List (String × Nat) → List (String × Nat)
  | [] => []
  | p :: rest => insertByCount p (sortByCountAsc rest)

/-- process_text (lines 52-83 of src/app.py), parametric in the stopword
set: filter the tokens, count them, drop the entries below min_freq
(dict comprehension, order preserving), and sort by count descending
(ascending stable argsort, reversed). -/
def process_text_with (sw : List String) (tokens : List String)
    (min_freq : Nat) : List (String × Nat) :=
  let fw := filtered_words_with sw tokens
  let word_freq := counter fw
  let thresholded := word_freq.filter (fun p => decide (min_freq ≤ p.2))
  (sortByCountAsc thresholded).reverse

/-- process_text as in the source. -/
def process_text (tokens : List String) (min_freq : Nat) : List (String × Nat) :=
  process_text_with stop_words tokens min_freq

/-- The stopword set with every single-character entry removed. -/
def stop_words_no_single : List String :=
  stop_words.filter (fun w => decide (w.length ≠ 1))

/-- process_text run against the reduced stopword set. -/
def process_text_no_single (tokens : List String) (min_freq : Nat) :
    List (String × Nat) :=
  process_text_with stop_words_no_single tokens min_freq

/-- df.head(top_n) as used on the frequency table by main and the chart
builders: the first top_n rows. -/
def df_head (df : List (String × Nat)) (top_n : Nat) : List (String × Nat) :=
  df.take top_n

/-- The first-occurrence order of a word stream: each distinct word
once, at the position of its first appearance. -/
def firstOcc : List String → List String
  | [] => []
  | w :: rest => w :: (firstOcc rest).filter (fun x => decide (x ≠ w))

/-- The three caller outcomes of main's result handling (lines 300-384
of src/app.py): rendering the table, the no-data warning of line 380,
and the content-unavailable message of line 382. -/
inductive RunReport where
  | results (table : List (String × Nat)) : RunReport
  | noDataWarning : RunReport
  | contentError : RunReport

/-- main's dispatch on the fetched text and the frequency table (lines
303-382 of src/app.py).  Python tests the fetched value for truthiness,
so None and the empty string both fall to the content-error branch; a
truthy text is processed, and an empty table takes the warning branch.
The external segmenter (jieba.lcut, called inside the source's
process_text) enters as a function. -/
def main_report (segment : String → List String) (text : Option String)
    (min_freq : Nat) : RunReport :=
  match text with
  | none => RunReport.contentError
  | some t =>
    if t = "" then RunReport.contentError
    else
      let df := process_text (segment t) min_freq
      if df = [] then RunReport.noDataWarning
      else RunReport.results df

/-! ## Helper notions for the proofs -/

/-- Fragments with their leading spaces dropped, empty ones discarded:
the part of a fragment list the cleaning pass can still see. -/
def normFrags (fs : List (List Char)) : List (List Char) :=
  (fs.map (List.dropWhile (fun c => decide (c = ' ')))).filter (fun f => !f.isEmpty)

/-- Fragments stripped and the empty ones discarded, as the join step of
the cleaning pass sees them. -/
def cleanFrags (fs : List (List Char)) : List (List Char) :=
  (fs.map pyStrip).filter (fun f => !f.isEmpty)

/-! ## Counter lemmas -/

lemma firstOcc_nodup (ws : List String) : (firstOcc ws).Nodup := by
  induction ws with
  | nil => simp [firstOcc]
  | cons w rest ih =>
    simp only [firstOcc, List.nodup_cons]
    constructor
    · intro hmem
      have := List.of_mem_filter hmem
      simp at this
    · exact List.Nodup.filter _ ih

lemma mem_firstOcc {x : String} {ws : List String} :
    x ∈ firstOcc ws ↔ x ∈ ws := by
  induction ws with
  | nil => simp [firstOcc]
  | cons w rest ih =>
    simp only [firstOcc, List.mem_cons, List.mem_filter]
    constructor
    · rintro (h | ⟨h, -⟩)
      · exact Or.inl h
      · exact Or.inr (ih.mp h)
    · rintro (h | h)
      · exact Or.inl h
      · by_cases hxw : x = w
        · exact Or.inl hxw
        · exact Or.inr ⟨ih.mpr h, by simp [hxw]⟩

lemma firstOcc_append_singleton (hs : List String) (w : String) :
    firstOcc (hs ++ [w]) =
      if w ∈ hs then firstOcc hs else firstOcc hs ++ [w] := by
  induction hs with
  | nil => simp [firstOcc]
  | cons h hs ih =>
    simp only [List.cons_append, firstOcc, List.append_eq, ih]
    by_cases hwh : w = h
    · subst hwh
      rw [if_pos (List.mem_cons_self _ _)]
      by_cases hmem : w ∈ hs
      · rw [if_pos hmem]
      · rw [if_neg hmem]
        simp [List.filter_append]
    · by_cases hmem : w ∈ hs
      · rw [if_pos hmem, if_pos (List.mem_cons_of_mem _ hmem)]
      · have hnot : w ∉ h :: hs := by
          intro hc
          rcases List.mem_cons.mp hc with hc | hc
          · exact hwh hc
          · exact hmem hc
        rw [if_neg hmem, if_neg hnot]
        simp [List.filter_append, hwh]

lemma bump_map_mem (keys : List String) (f : String → Nat) (w : String)
    (hw : w ∈ keys) (hnd : keys.Nodup) :
    bump (keys.map (fun x => (x, f x))) w
      = keys.map (fun x => (x, if x = w then f x + 1 else f x)) := by
  induction keys with
  | nil => cases hw
  | cons k ks ih =>
    rw [List.map_cons, List.map_cons]
    by_cases hkw : k = w
    · subst hkw
      have hniks : k ∉ ks := (List.nodup_cons.mp hnd).1
      have hhead : bump ((k, f k) :: List.map (fun x => (x, f x)) ks) k
          = (k, f k + 1) :: List.map (fun x => (x, f x)) ks := by
        simp [bump]
      rw [hhead]
      congr 1
      · simp
      · apply List.map_congr_left
        intro x hx
        have hxk : x ≠ k := fun hxk => hniks (hxk ▸ hx)
        simp [hxk]
    · have hwks : w ∈ ks := by
        rcases List.mem_cons.mp hw with h | h
        · exact absurd h.symm hkw
        · exact h
      have hhead : bump ((k, f k) :: List.map (fun x => (x, f x)) ks) w
          = (k, f k) :: bump (List.map (fun x => (x, f x)) ks) w := by
        simp [bump, hkw]
      rw [hhead, ih hwks (List.nodup_cons.mp hnd).2]
      simp [hkw]

lemma bump_map_not_mem (keys : List String) (f : String → Nat) (w : String)
    (hw : w ∉ keys) :
    bump (keys.map (fun x => (x, f x))) w
      = keys.map (fun x => (x, f x)) ++ [(w, 1)] := by
  induction keys with
  | nil => simp [bump]
  | cons k ks ih =>
    have hkw : k ≠ w := fun h => hw (h ▸ List.mem_cons_self k ks)
    have hwks : w ∉ ks := fun h => hw (List.mem_cons_of_mem _ h)
    simp only [List.map_cons, bump, if_neg hkw, ih hwks, List.cons_append]

lemma counter_go (ws hs : List String) :
    ws.foldl bump ((firstOcc hs).map (fun x => (x, hs.count x)))
      = (firstOcc (hs ++ ws)).map (fun x => (x, (hs ++ ws).count x)) := by
  induction ws generalizing hs with
  | nil => simp
  | cons w ws ih =>
    have hstep : bump ((firstOcc hs).map (fun x => (x, hs.count x))) w
        = (firstOcc (hs ++ [w])).map (fun x => (x, (hs ++ [w]).count x)) := by
      by_cases hmem : w ∈ hs
      · rw [bump_map_mem _ _ _ (mem_firstOcc.mpr hmem) (firstOcc_nodup hs)]
        rw [firstOcc_append_singleton, if_pos hmem]
        apply List.map_congr_left
        intro x hx
        by_cases hxw : x = w
        · subst hxw
          simp [List.count_append]
        · simp [hxw, List.count_append, List.count_singleton']
      · rw [bump_map_not_mem _ _ _ (fun h => hmem (mem_firstOcc.mp h))]
        rw [firstOcc_append_singleton, if_neg hmem, List.map_append]
        congr 1
        · apply List.map_congr_left
          intro x hx
          have hxhs : x ∈ hs := mem_firstOcc.mp hx
          have hxw : x ≠ w := fun h => hmem (h ▸ hxhs)
          simp [List.count_append, List.count_singleton', hxw]
        · have : hs.count w = 0 := List.count_eq_zero.mpr hmem
          simp [List.count_append, this]
    calc (w :: ws).foldl bump ((firstOcc hs).map (fun x => (x, hs.count x)))
        = ws.foldl bump (bump ((firstOcc hs).map (fun x => (x, hs.count x))) w) := rfl
      _ = ws.foldl bump ((firstOcc (hs ++ [w])).map (fun x => (x, (hs ++ [w]).count x))) := by
            rw [hstep]
      _ = (firstOcc ((hs ++ [w]) ++ ws)).map (fun x => (x, ((hs ++ [w]) ++ ws).count x)) := ih _
      _ = (firstOcc (hs ++ w :: ws)).map (fun x => (x, (hs ++ w :: ws).count x)) := by
            simp [List.append_assoc]

/-- Counter builds exactly one entry per distinct word, in
first-occurrence order, carrying that word's occurrence count. -/
lemma counter_spec (ws : List String) :
    counter ws = (firstOcc ws).map (fun x => (x, ws.count x)) := by
  have := counter_go ws []
  simpa [counter, firstOcc] using this

lemma mem_counter {w : String} {c : Nat} {ws : List String} :
    (w, c) ∈ counter ws ↔ w ∈ ws ∧ c = ws.count w := by
  rw [counter_spec]
  simp only [List.mem_map, Prod.mk.injEq]
  constructor
  · rintro ⟨x, hx, rfl, rfl⟩
    exact ⟨mem_firstOcc.mp hx, rfl⟩
  · rintro ⟨hw, rfl⟩
    exact ⟨w, mem_firstOcc.mpr hw, rfl, rfl⟩

lemma bump_sum (acc : List (String × Nat)) (w : String) :
    ((bump acc w).map Prod.snd).sum = ((acc.map Prod.snd)).sum + 1 := by
  induction acc with
  | nil => simp [bump]
  | cons p rest ih =>
    obtain ⟨t, c⟩ := p
    simp only [bump]
    by_cases h : t = w
    · simp [h]
      omega
    · simp [h, ih]
      omega

lemma counter_sum_go (ws : List String) (acc : List (String × Nat)) :
    (((ws.foldl bump acc).map Prod.snd)).sum = ((acc.map Prod.snd)).sum + ws.length := by
  induction ws generalizing acc with
  | nil => simp
  | cons w ws ih =>
    simp only [List.foldl_cons, List.length_cons, ih (bump acc w), bump_sum]
    omega

/-! ## Sorting lemmas -/

lemma mem_insertByCount {x p : String × Nat} {l : List (String × Nat)} :
    x ∈ insertByCount p l ↔ x = p ∨ x ∈ l := by
  induction l with
  | nil => simp [insertByCount]
  | cons q rest ih =>
    simp only [insertByCount]
    by_cases h : q.2 < p.2
    · simp [h, ih]
      tauto
    · simp [h]

lemma mem_sortByCountAsc {x : String × Nat} {l : List (String × Nat)} :
    x ∈ sortByCountAsc l ↔ x ∈ l := by
  induction l with
  | nil => simp [sortByCountAsc]
  | cons p rest ih =>
    simp only [sortByCountAsc, mem_insertByCount, ih, List.mem_cons]

lemma insertByCount_pairwise {p : String × Nat} {l : List (String × Nat)}
    (h : l.Pairwise (fun a b => a.2 ≤ b.2)) :
    (insertByCount p l).Pairwise (fun a b => a.2 ≤ b.2) := by
  induction l with
  | nil => simp [insertByCount]
  | cons q rest ih =>
    rcases List.pairwise_cons.mp h with ⟨hq, hrest⟩
    simp only [insertByCount]
    by_cases hlt : q.2 < p.2
    · rw [if_pos hlt]
      refine List.pairwise_cons.mpr ⟨?_, ih hrest⟩
      intro x hx
      rcases mem_insertByCount.mp hx with rfl | hx
      · exact Nat.le_of_lt hlt
      · exact hq x hx
    · rw [if_neg hlt]
      refine List.pairwise_cons.mpr ⟨?_, h⟩
      intro x hx
      rcases List.mem_cons.mp hx with rfl | hx
      · exact Nat.le_of_not_lt hlt
      · exact Nat.le_trans (Nat.le_of_not_lt hlt) (hq x hx)

lemma sortByCountAsc_pairwise (l : List (String × Nat)) :
    (sortByCountAsc l).Pairwise (fun a b => a.2 ≤ b.2) := by
  induction l with
  | nil => simp [sortByCountAsc]
  | cons p rest ih => exact insertByCount_pairwise ih

lemma insertByCount_perm (p : String × Nat) (l : List (String × Nat)) :
    (insertByCount p l).Perm (p :: l) := by
  induction l with
  | nil => exact List.Perm.refl _
  | cons q rest ih =>
    simp only [insertByCount]
    by_cases hlt : q.2 < p.2
    · rw [if_pos hlt]
      exact (ih.cons q).trans (List.Perm.swap p q rest)
    · rw [if_neg hlt]

lemma sortByCountAsc_perm (l : List (String × Nat)) :
    (sortByCountAsc l).Perm l := by
  induction l with
  | nil => exact List.Perm.refl _
  | cons p rest ih =>
    exact (insertByCount_perm p (sortByCountAsc rest)).trans (ih.cons p)


/-! ## Token filter facts -/

lemma validToken_iff (w : String) :
    validToken stop_words w = true ↔
      2 ≤ w.length ∧ w ∉ stop_words ∧
        ∃ c ∈ w.data, 0x4e00 ≤ c.toNat ∧ c.toNat ≤ 0x9fa5 := by
  unfold validToken hasChineseChar
  simp [List.any_eq_true, List.elem_iff, and_assoc]

/-! ## Claim theorems -/

/-- Claim C2: a token enters the filtered token list exactly when it
occurs in the segmenter output and satisfies all three predicates of the
filter loop: character length at least 2, not a stopword, and at least
one character in the CJK Unified Ideographs range U+4E00 to U+9FA5.
Tokens failing any predicate are dropped (the only-if direction). -/
theorem token_filter_conditions (tokens : List String) (w : String) :
    w ∈ filtered_words tokens ↔
      w ∈ tokens ∧ 2 ≤ w.length ∧ w ∉ stop_words ∧
        ∃ c ∈ w.data, 0x4e00 ≤ c.toNat ∧ c.toNat ≤ 0x9fa5 := by
  unfold filtered_words
  induction tokens with
  | nil => simp [filtered_words_with]
  | cons t rest ih =>
    simp only [filtered_words_with]
    by_cases hv : validToken stop_words t = true
    · rw [if_pos hv]
      simp only [List.mem_cons]
      constructor
      · rintro (rfl | hmem)
        · exact ⟨Or.inl rfl, (validToken_iff w).mp hv⟩
        · have := ih.mp hmem
          tauto
      · rintro ⟨rfl | hmem, hconds⟩
        · exact Or.inl rfl
        · exact Or.inr (ih.mpr ⟨hmem, hconds⟩)
    · rw [if_neg hv]
      constructor
      · intro hmem
        have := ih.mp hmem
        simp only [List.mem_cons]
        tauto
      · rintro ⟨hcases, hconds⟩
        rcases List.mem_cons.mp hcases with rfl | hmem
        · exact absurd ((validToken_iff w).mpr hconds) hv
        · exact ih.mpr ⟨hmem, hconds⟩

/-- Claim C3: before the min_freq threshold, the counts recorded by the
Counter over the filtered words sum to the number of filtered words. -/
theorem aggregated_counts_sum (tokens : List String) :
    ((counter (filtered_words tokens)).map Prod.snd).sum
      = (filtered_words tokens).length := by
  have h := counter_sum_go (filtered_words tokens) []
  simpa [counter] using h

/-- Claim C1, amended: the table produced by process_text is sorted
non-increasing by count and holds exactly the thresholded Counter
entries (conjunct two: a permutation of them); the Counter itself
lists terms in first-occurrence order of the filtered stream (conjunct
three); but the table's order among entries of equal count is not the
first-occurrence order the claim states: pandas reverses an ascending
numpy argsort whose tie order is implementation-defined, and on the
concrete counterexample it is the exact reverse.  Only order and
permutation are asserted universally, because every argsort kind
guarantees exactly those. -/
theorem freq_table_sorted_and_permuted (tokens : List String) (min_freq : Nat) :
    (process_text tokens min_freq).Pairwise (fun a b => b.2 ≤ a.2) ∧
    (process_text tokens min_freq).Perm
      ((counter (filtered_words tokens)).filter (fun p => decide (min_freq ≤ p.2))) ∧
    (counter (filtered_words tokens)).map Prod.fst
      = firstOcc (filtered_words tokens) := by
  refine ⟨?_, ?_, ?_⟩
  · exact List.pairwise_reverse.mpr (sortByCountAsc_pairwise _)
  · show ((sortByCountAsc _).reverse).Perm _
    exact (List.reverse_perm _).trans (sortByCountAsc_perm _)
  · rw [counter_spec, List.map_map]
    simp [Function.comp_def]

/-- Claim C1, counterexample: with the filtered token stream
玉米, 小麦, 玉米, 小麦 (both terms counted twice, 玉米 first-occurring at
index 0, before 小麦 at index 1), process_text puts 小麦 before 玉米, so
equal-count entries do not follow first-occurrence order. -/
theorem freq_table_ties_not_first_occurrence :
    process_text ["玉米", "小麦", "玉米", "小麦"] 1 = [("小麦", 2), ("玉米", 2)] ∧
    filtered_words ["玉米", "小麦", "玉米", "小麦"] = ["玉米", "小麦", "玉米", "小麦"] := by
  constructor <;> rfl

/-- Claim C7: for min_freq at least 1, the table holds exactly the pairs
of a term and its occurrence count in the filtered words whose count
reaches min_freq. -/
theorem threshold_membership (tokens : List String) (min_freq : Nat)
    (w : String) (c : Nat) (h : 1 ≤ min_freq) :
    (w, c) ∈ process_text tokens min_freq ↔
      c = (filtered_words tokens).count w ∧ min_freq ≤ c := by
  show (w, c) ∈ (sortByCountAsc _).reverse ↔ _
  rw [List.mem_reverse, mem_sortByCountAsc, List.mem_filter]
  simp only [decide_eq_true_eq]
  constructor
  · rintro ⟨hmem, hle⟩
    exact ⟨(mem_counter.mp hmem).2, hle⟩
  · rintro ⟨hc, hle⟩
    have hpos : 0 < (filtered_words tokens).count w := by omega
    have hw : w ∈ filtered_words tokens := List.count_pos_iff.mp hpos
    exact ⟨mem_counter.mpr ⟨hw, hc⟩, hle⟩

/-- Witness for claim C7 at a concrete run. -/
theorem threshold_membership_witness :
    ("你好", 2) ∈ process_text ["你好", "你好", "世界"] 2 ↔
      2 = (filtered_words ["你好", "你好", "世界"]).count "你好" ∧ 2 ≤ 2 :=
  threshold_membership ["你好", "你好", "世界"] 2 "你好" 2 (by decide)

/-- Claim C8, amended: process_text returns the empty table as an
ordinary value whenever the token stream is empty, nothing survives the
filter, or no count reaches min_freq (conjuncts one to three; the
function is total, so no exception exists); for a NON-empty extracted
text the caller presents an empty table as the no-data warning, not an
error (conjunct four); but an empty NormalizedText itself is conflated
by main's truthiness test with a failed fetch and reported through the
content-error branch, identically for the None of a fetch failure
(conjunct five) — which refutes the never-an-error half of the claim as
stated. -/
theorem empty_result_handling :
    (∀ min_freq : Nat, process_text [] min_freq = []) ∧
    (∀ (tokens : List String) (min_freq : Nat),
      filtered_words tokens = [] → process_text tokens min_freq = []) ∧
    (∀ (tokens : List String) (min_freq : Nat),
      (counter (filtered_words tokens)).filter
          (fun p => decide (min_freq ≤ p.2)) = [] →
        process_text tokens min_freq = []) ∧
    (∀ (segment : String → List String) (t : String) (min_freq : Nat),
      t ≠ "" → process_text (segment t) min_freq = [] →
        main_report segment (some t) min_freq = RunReport.noDataWarning) ∧
    (∀ (segment : String → List String) (min_freq : Nat),
      main_report segment (some "") min_freq = RunReport.contentError ∧
      main_report segment none min_freq = RunReport.contentError) := by
  refine ⟨fun _ => rfl, fun tokens min_freq h => ?_, fun tokens min_freq h => ?_,
    fun segment t min_freq ht hdf => ?_, fun segment min_freq => ⟨?_, ?_⟩⟩
  · have h' : filtered_words_with stop_words tokens = [] := h
    show (sortByCountAsc ((counter (filtered_words_with stop_words tokens)).filter _)).reverse = []
    rw [h']
    rfl
  · have h' : (counter (filtered_words_with stop_words tokens)).filter
        (fun p => decide (min_freq ≤ p.2)) = [] := h
    show (sortByCountAsc ((counter (filtered_words_with stop_words tokens)).filter _)).reverse = []
    rw [h']
    rfl
  · simp [main_report, ht, hdf]
  · rfl
  · rfl

/-- Witness for claim C8: the single-token stream holding the stopword
的 leaves nothing after filtering and yields the empty table, and the
caller presents that empty table for a non-empty text as the no-data
warning. -/
theorem empty_result_handling_witness :
    process_text ["的"] 1 = [] ∧
    main_report (fun _ => ["的"]) (some "x") 1 = RunReport.noDataWarning :=
  ⟨empty_result_handling.2.1 ["的"] 1 (by decide),
    empty_result_handling.2.2.2.1 (fun _ => ["的"]) "x" 1 (by decide) (by decide)⟩

/-- Claim C8, counterexample: an empty extracted text falls through
main's truthiness test into the same content-error branch as a fetch
failure, so empty NormalizedText is reported as an error, not as the
claimed no-data state. -/
theorem empty_text_error_conflated :
    main_report (fun _ => []) (some "") 1 = RunReport.contentError ∧
    main_report (fun _ => []) none 1 = RunReport.contentError :=
  ⟨rfl, rfl⟩

/-- Claim C9: the view handed to chart rendering is df.head(top_n): it
has exactly min top_n |df| entries, and together with the dropped
remainder it reassembles df unchanged, so it is an unreordered prefix
and the table itself is untouched. -/
theorem ranked_view_prefix (df : List (String × Nat)) (top_n : Nat) :
    (df_head df top_n).length = min top_n df.length ∧
    df_head df top_n ++ df.drop top_n = df :=
  ⟨List.length_take top_n df, List.take_append_drop top_n df⟩

/-- Removing the single-character entries from the stopword set does not
change the filter verdict on any token: the length test already rejects
every token a single-character stopword could equal. -/
lemma validToken_no_single (w : String) :
    validToken stop_words w = validToken stop_words_no_single w := by
  unfold validToken
  by_cases h2 : 2 ≤ w.length
  · have h1 : w.length ≠ 1 := by omega
    have hc : stop_words.contains w = stop_words_no_single.contains w := by
      unfold stop_words_no_single
      by_cases hmem : w ∈ stop_words
      · have hmem' : w ∈ stop_words.filter (fun v => decide (v.length ≠ 1)) :=
          List.mem_filter.mpr ⟨hmem, by simpa using h1⟩
        simp [List.elem_iff, hmem, hmem', h1]
      · have hmem' : w ∉ stop_words.filter (fun v => decide (v.length ≠ 1)) := by
          intro hmem'
          exact hmem (List.mem_filter.mp hmem').1
        simp [List.elem_iff, hmem, hmem']
    rw [hc]
  · have hfalse : decide (2 ≤ w.length) = false := by simp [h2]
    simp [hfalse]

/-- Claim C10: process_text returns identical output when every
single-character entry is removed from the hard-coded stopword set. -/
theorem stop_single_char_redundant (tokens : List String) (min_freq : Nat) :
    process_text tokens min_freq = process_text_no_single tokens min_freq := by
  have hfw : filtered_words_with stop_words tokens
      = filtered_words_with stop_words_no_single tokens := by
    induction tokens with
    | nil => rfl
    | cons w rest ih =>
      simp only [filtered_words_with]
      rw [validToken_no_single w, ih]
  show (sortByCountAsc ((counter (filtered_words_with stop_words tokens)).filter _)).reverse = _
  rw [hfw]
  rfl

/-! ## Markup tree lemmas and claims C4, C6 -/

lemma getText_removeNonVisual (doc : List Dom) :
    getText (removeNonVisual doc) = visibleText doc := by
  induction doc using removeNonVisual.induct with
  | case1 =>
    rw [removeNonVisual.eq_1, getText.eq_1, visibleText.eq_1]
  | case2 s rest ih =>
    rw [removeNonVisual.eq_2, getText.eq_2, visibleText.eq_2, ih]
  | case3 tag kids rest hvis ihrest =>
    rw [removeNonVisual.eq_3, if_pos hvis, visibleText.eq_3, if_pos hvis, ihrest]
    rfl
  | case4 tag kids rest hvis ihkids ihrest =>
    rw [removeNonVisual.eq_3, if_neg hvis, getText.eq_3, visibleText.eq_3, if_neg hvis,
      ihkids, ihrest]

lemma getText_chars {c : Char} (l : List Dom) (hc : c ∈ (getText l).data) :
    ∃ s ∈ domTexts l, c ∈ s.data := by
  induction l using getText.induct with
  | case1 =>
    rw [getText.eq_1] at hc
    exact absurd hc (List.not_mem_nil c)
  | case2 s rest ih =>
    rw [getText.eq_2, String.data_append] at hc
    rcases List.mem_append.mp hc with h | h
    · refine ⟨s, ?_, h⟩
      rw [domTexts.eq_2]
      exact List.mem_cons_self _ _
    · obtain ⟨t, ht, hct⟩ := ih h
      refine ⟨t, ?_, hct⟩
      rw [domTexts.eq_2]
      exact List.mem_cons_of_mem _ ht
  | case3 tag kids rest ihkids ihrest =>
    rw [getText.eq_3, String.data_append] at hc
    rcases List.mem_append.mp hc with h | h
    · obtain ⟨t, ht, hct⟩ := ihkids h
      refine ⟨t, ?_, hct⟩
      rw [domTexts.eq_3]
      exact List.mem_append.mpr (Or.inl ht)
    · obtain ⟨t, ht, hct⟩ := ihrest h
      refine ⟨t, ?_, hct⟩
      rw [domTexts.eq_3]
      exact List.mem_append.mpr (Or.inr ht)

lemma domTexts_removeNonVisual {s : String} (l : List Dom)
    (h : s ∈ domTexts (removeNonVisual l)) : s ∈ domTexts l := by
  induction l using removeNonVisual.induct with
  | case1 =>
    rw [removeNonVisual.eq_1] at h
    exact h
  | case2 t rest ih =>
    rw [removeNonVisual.eq_2, domTexts.eq_2] at h
    rw [domTexts.eq_2]
    rcases List.mem_cons.mp h with rfl | h
    · exact List.mem_cons_self _ _
    · exact List.mem_cons_of_mem _ (ih h)
  | case3 tag kids rest hvis ihrest =>
    rw [removeNonVisual.eq_3, if_pos hvis] at h
    rw [domTexts.eq_3]
    exact List.mem_append.mpr (Or.inr (ihrest h))
  | case4 tag kids rest hvis ihkids ihrest =>
    rw [removeNonVisual.eq_3, if_neg hvis, domTexts.eq_3] at h
    rw [domTexts.eq_3]
    rcases List.mem_append.mp h with h | h
    · exact List.mem_append.mpr (Or.inl (ihkids h))
    · exact List.mem_append.mpr (Or.inr (ihrest h))

/-- Claim C6, amended: every subtree rooted at a script or style element
is removed in full before text extraction, so the extracted text is
exactly the concatenation of the text nodes outside those subtrees
(conjunct one); and provided no text node itself holds a left angle
bracket (as when the parsed markup had none and entities stayed
encoded), the output holds none either, hence no substring of raw tag
syntax (conjunct two).  Without that proviso the output can contain tag
syntax coming from a text node, which is the counterexample to the
claim as stated. -/
theorem script_style_removal (doc : List Dom) :
    (getText (removeNonVisual doc) = visibleText doc) ∧
    ((∀ s ∈ domTexts doc, ('<' : Char) ∉ s.data) →
      ('<' : Char) ∉ (getText (removeNonVisual doc)).data) := by
  refine ⟨getText_removeNonVisual doc, fun hall hmem => ?_⟩
  obtain ⟨s, hs, hcs⟩ := getText_chars _ hmem
  exact hall s (domTexts_removeNonVisual doc hs) hcs

/-- Witness for claim C6 on a concrete tree with a script subtree. -/
theorem script_style_removal_witness :
    (getText (removeNonVisual
        [Dom.element "div" [Dom.text "你好", Dom.element "script" [Dom.text "var x = 1"],
          Dom.text "世界"]])
      = visibleText
        [Dom.element "div" [Dom.text "你好", Dom.element "script" [Dom.text "var x = 1"],
          Dom.text "世界"]]) ∧
    ('<' : Char) ∉ (getText (removeNonVisual
        [Dom.element "div" [Dom.text "你好", Dom.element "script" [Dom.text "var x = 1"],
          Dom.text "世界"]])).data :=
  ⟨(script_style_removal _).1,
    (script_style_removal
        [Dom.element "div" [Dom.text "你好", Dom.element "script" [Dom.text "var x = 1"],
          Dom.text "世界"]]).2
      (by
        simp only [domTexts.eq_1, domTexts.eq_2, domTexts.eq_3]
        decide)⟩

/-- Claim C6, counterexample: a text node may itself contain markup tag
syntax (BeautifulSoup yields such nodes, e.g. from the entities
&lt;b&gt;); extraction passes it through verbatim, so the output
contains the tag-shaped substring between the shown context. -/
theorem extracted_text_can_hold_tag_syntax :
    getText (removeNonVisual [Dom.text "a <b> c"]) = "a " ++ "<b>" ++ " c" := by
  rw [removeNonVisual.eq_2, removeNonVisual.eq_1, getText.eq_2, getText.eq_1]
  rfl

/-- Claim C4, amended: fetch_web_content returns None exactly when the
fetch raised or the parse raised; both failure kinds land in the single
try/except handler and surface as the same None, so the caller cannot
tell a network failure from unparseable content. -/
theorem fetch_failure_not_distinguished (fetched : Except String String)
    (parse : String → Except String (List Dom)) :
    fetch_web_content fetched parse = none ↔
      (∃ e, fetched = Except.error e) ∨
      (∃ m e, fetched = Except.ok m ∧ parse m = Except.error e) := by
  cases fetched with
  | error e => simp [fetch_web_content]
  | ok markup =>
    cases hp : parse markup with
    | error e => simp [fetch_web_content, hp]
    | ok soup => simp [fetch_web_content, hp]

/-- Claim C4, counterexample: a timed-out fetch and a parse failure on
fetched markup produce the very same surfaced value, None, so the two
failure kinds are not distinguished to the caller. -/
theorem fetch_and_parse_failures_collapse :
    fetch_web_content (Except.error "timeout") (fun _ => Except.ok []) =
      fetch_web_content (Except.ok "<bad") (fun _ => Except.error "unparseable") := rfl

/-! ## Cleaning-pass lemmas for claim C5 -/

lemma pySplitTwoSpace_ne_nil (l : List Char) : pySplitTwoSpace l ≠ [] := by
  induction l using pySplitTwoSpace.induct with
  | case1 => simp [pySplitTwoSpace]
  | case2 rest ih => simp [pySplitTwoSpace]
  | case3 c rest hguard ih =>
    rw [pySplitTwoSpace.eq_3 _ _ hguard]
    obtain ⟨h, t, he⟩ := List.exists_cons_of_ne_nil ih
    rw [he]
    simp [List.modifyHead]

lemma runSplitTwoSpace_ne_nil (l : List Char) : runSplitTwoSpace l ≠ [] := by
  induction l using runSplitTwoSpace.induct with
  | case1 => rw [runSplitTwoSpace.eq_1]; simp
  | case2 rest ih => rw [runSplitTwoSpace.eq_2]; simp
  | case3 c rest hguard ih =>
    rw [runSplitTwoSpace.eq_3 _ _ hguard]
    obtain ⟨h, t, he⟩ := List.exists_cons_of_ne_nil ih
    rw [he]
    simp [List.modifyHead]

lemma normFrags_cons (f : List Char) (fs : List (List Char)) :
    normFrags (f :: fs) =
      if (f.dropWhile (fun c => decide (c = ' '))).isEmpty = true
      then normFrags fs
      else f.dropWhile (fun c => decide (c = ' ')) :: normFrags fs := by
  simp only [normFrags, List.map_cons, List.filter_cons]
  by_cases h : (f.dropWhile (fun c => decide (c = ' '))).isEmpty = true
  · simp [h]
  · simp [h]

lemma normFrags_cons_nil (fs : List (List Char)) :
    normFrags ([] :: fs) = normFrags fs := by
  simp [normFrags]

lemma normFrags_cons_space (f : List Char) (fs : List (List Char)) :
    normFrags ((' ' :: f) :: fs) = normFrags (f :: fs) := by
  rw [normFrags_cons, normFrags_cons]
  have hdw : (' ' :: f).dropWhile (fun c => decide (c = ' '))
      = f.dropWhile (fun c => decide (c = ' ')) := by
    simp [List.dropWhile_cons]
  rw [hdw]

lemma normFrags_modifyHead_space {fs : List (List Char)} (h : fs ≠ []) :
    normFrags (fs.modifyHead (' ' :: ·)) = normFrags fs := by
  match fs with
  | [] => exact absurd rfl h
  | f :: t => exact normFrags_cons_space f t

lemma runSplit_space_norm (n : Nat) : ∀ m : List Char, m.length ≤ n →
    (normFrags (runSplitTwoSpace (' ' :: m)) = normFrags (runSplitTwoSpace m)) ∧
    (normFrags (runSplitTwoSpace (m.dropWhile (fun c => decide (c = ' '))))
      = normFrags (runSplitTwoSpace m)) := by
  induction n with
  | zero =>
    intro m hm
    have hm0 : m = [] := List.length_eq_zero.mp (Nat.le_zero.mp hm)
    subst hm0
    have h1 : runSplitTwoSpace [' '] = [[' ']] := by
      rw [runSplitTwoSpace.eq_3 ' ' [] (by intro r h1 h2; cases h2)]
      rw [runSplitTwoSpace.eq_1]
      rfl
    refine ⟨?_, by simp [List.dropWhile]⟩
    rw [h1, runSplitTwoSpace.eq_1]
    simp [normFrags]
  | succ n ih =>
    intro m hm
    match m with
    | [] =>
      have h1 : runSplitTwoSpace [' '] = [[' ']] := by
        rw [runSplitTwoSpace.eq_3 ' ' [] (by intro r h1 h2; cases h2)]
        rw [runSplitTwoSpace.eq_1]
        rfl
      refine ⟨?_, by simp [List.dropWhile]⟩
      rw [h1, runSplitTwoSpace.eq_1]
      simp [normFrags]
    | c :: mm =>
      have hmm : mm.length ≤ n := by
        simp only [List.length_cons] at hm
        omega
      by_cases hc : c = ' '
      · subst hc
        obtain ⟨ih1, ih2⟩ := ih mm hmm
        constructor
        · rw [runSplitTwoSpace.eq_2, normFrags_cons_nil, ih2, ih1]
        · have hdw : (' ' :: mm).dropWhile (fun c => decide (c = ' '))
              = mm.dropWhile (fun c => decide (c = ' ')) := by
            simp [List.dropWhile_cons]
          rw [hdw, ih2, ih1]
      · constructor
        · rw [runSplitTwoSpace.eq_3 ' ' (c :: mm)
            (by intro r _ hr; injection hr with hr1 _; exact hc hr1)]
          exact normFrags_modifyHead_space (runSplitTwoSpace_ne_nil _)
        · have hdw : (c :: mm).dropWhile (fun x => decide (x = ' ')) = c :: mm := by
            simp [List.dropWhile_cons, hc]
          rw [hdw]

lemma split_agree (l : List Char) :
    (pySplitTwoSpace l).headD [] = (runSplitTwoSpace l).headD [] ∧
    normFrags (pySplitTwoSpace l) = normFrags (runSplitTwoSpace l) := by
  induction l using pySplitTwoSpace.induct with
  | case1 =>
    rw [runSplitTwoSpace.eq_1]
    exact ⟨rfl, rfl⟩
  | case2 rest ih =>
    rw [pySplitTwoSpace.eq_2, runSplitTwoSpace.eq_2]
    refine ⟨rfl, ?_⟩
    rw [normFrags_cons_nil, normFrags_cons_nil, ih.2]
    exact ((runSplit_space_norm rest.length rest (le_refl _)).2).symm
  | case3 c rest hguard ih =>
    rw [pySplitTwoSpace.eq_3 _ _ hguard, runSplitTwoSpace.eq_3 _ _ hguard]
    obtain ⟨h1, h2⟩ := ih
    obtain ⟨ph, pt, hpe⟩ := List.exists_cons_of_ne_nil (pySplitTwoSpace_ne_nil rest)
    obtain ⟨rh, rt, hre⟩ := List.exists_cons_of_ne_nil (runSplitTwoSpace_ne_nil rest)
    rw [hpe, hre] at h1 h2 ⊢
    simp only [List.headD_cons] at h1
    subst h1
    simp only [List.modifyHead]
    refine ⟨rfl, ?_⟩
    have hnf : normFrags pt = normFrags rt := by
      rw [normFrags_cons, normFrags_cons] at h2
      by_cases hph : ((ph.dropWhile (fun x => decide (x = ' '))).isEmpty = true)
      · rwa [if_pos hph, if_pos hph] at h2
      · rw [if_neg hph, if_neg hph] at h2
        injection h2 with _ h2t
    by_cases hcsp : c = ' '
    · subst hcsp
      rw [normFrags_cons_space, normFrags_cons_space, normFrags_cons, normFrags_cons, hnf]
    · have hdw : (c :: ph).dropWhile (fun x => decide (x = ' ')) = c :: ph := by
        simp [List.dropWhile_cons, hcsp]
      rw [normFrags_cons, normFrags_cons, hdw, hnf]

lemma dropWhile_dropWhile_imp {p q : Char → Bool}
    (hpq : ∀ c, p c = true → q c = true) (l : List Char) :
    (l.dropWhile p).dropWhile q = l.dropWhile q := by
  induction l with
  | nil => rfl
  | cons c rest ih =>
    rw [List.dropWhile_cons]
    by_cases hp : p c = true
    · rw [if_pos hp, ih, List.dropWhile_cons, if_pos (hpq c hp)]
    · rw [if_neg hp]

lemma pyStrip_dropWhile_space (l : List Char) :
    pyStrip (l.dropWhile (fun c => decide (c = ' '))) = pyStrip l := by
  have hinner : (l.dropWhile (fun c => decide (c = ' '))).dropWhile isPyWhitespace
      = l.dropWhile isPyWhitespace :=
    dropWhile_dropWhile_imp
      (fun c hc => by
        have hcs : c = ' ' := of_decide_eq_true hc
        simp [hcs, isPyWhitespace]) l
  rw [pyStrip, pyStrip, hinner]

lemma pyStrip_of_dropWhile_space_nil {f : List Char}
    (h : f.dropWhile (fun c => decide (c = ' ')) = []) : pyStrip f = [] := by
  have hall := List.dropWhile_eq_nil_iff.mp h
  have hws : f.dropWhile isPyWhitespace = [] :=
    List.dropWhile_eq_nil_iff.mpr (fun x hx => by
      have hxs : x = ' ' := of_decide_eq_true (hall x hx)
      simp [hxs, isPyWhitespace])
  rw [pyStrip, hws]
  simp

lemma cleanFrags_cons (f : List Char) (fs : List (List Char)) :
    cleanFrags (f :: fs) =
      if (pyStrip f).isEmpty = true then cleanFrags fs
      else pyStrip f :: cleanFrags fs := by
  simp only [cleanFrags, List.map_cons, List.filter_cons]
  by_cases h : (pyStrip f).isEmpty = true
  · simp [h]
  · simp [h]

lemma cleanFrags_normFrags (fs : List (List Char)) :
    cleanFrags (normFrags fs) = cleanFrags fs := by
  induction fs with
  | nil => rfl
  | cons f t ih =>
    rw [normFrags_cons]
    by_cases hf : ((f.dropWhile (fun c => decide (c = ' '))).isEmpty = true)
    · rw [if_pos hf, ih, cleanFrags_cons]
      have hnil : f.dropWhile (fun c => decide (c = ' ')) = [] := List.isEmpty_iff.mp hf
      have hstrip : pyStrip f = [] := pyStrip_of_dropWhile_space_nil hnil
      rw [hstrip]
      simp
    · rw [if_neg hf, cleanFrags_cons, cleanFrags_cons,
        pyStrip_dropWhile_space, ih]

lemma cleanFrags_split_eq (l : List Char) :
    cleanFrags (pySplitTwoSpace l) = cleanFrags (runSplitTwoSpace l) := by
  rw [← cleanFrags_normFrags (pySplitTwoSpace l),
    ← cleanFrags_normFrags (runSplitTwoSpace l), (split_agree l).2]

/-- Claim C5: the cleaning step as coded (split each stripped line on
the literal two-space string, strip the fragments, drop the empty ones,
rejoin with single spaces) computes the same string as the specified
rule (split each stripped line on runs of two or more spaces, strip,
drop empties, rejoin), for every input text. -/
theorem clean_rule_equivalence (text : List Char) :
    clean_code text = clean_spec text := by
  unfold clean_code clean_spec
  congr 1
  induction pySplitlines text with
  | nil => rfl
  | cons ln rest ih =>
    simp only [List.map_cons, List.flatten_cons, List.filter_append]
    rw [ih]
    congr 1
    exact cleanFrags_split_eq (pyStrip ln)

end App
